import Mathlib

/-!
# Graphilt core: polynomial filter engine and filter factory

A shallow embedding of `src/core/Engine.h` and `src/core/FilterFactory.h`.

Conventions of the embedding.

* `ScalarType` (float or double in the C++ templates) is an exact field `α`;
  rounding is not modelled. The functions of the C math library the code
  calls (`cos`, `std::exp`, `std::log`) and the constant `pi` are arguments of
  the definitions that use them, so that the definitions stay executable over
  `ℚ`; the theorems about the real behaviour instantiate them with
  `Real.cos`, `Real.exp`, `Real.log` and `Real.pi`.
* One scalar operation decides a branch: the quotient `lmax / lpFactor` of
  `buildMexicanHat` is compared with zero by the guard of `waveletScales`. That
  division is the argument `sdiv` of `buildMexicanHat` and `createFilter`; it
  tells whether the quotient of the scalar type is finite and which value it
  has, so that underflow to zero and division by zero are not hidden by the
  exact field. `doubleDiv` is the division of `double` to that extent.
* `size_t` values are natural numbers. Every such value is a container size
  or a loop counter bounded by one (`coeff.reserve(maxOrder+1)` raises
  `length_error` beyond `max_size`), so no `size_t` operation wraps on a
  call that returns; `order - 1` in `chebyCoeff` is only evaluated at
  `order ≥ 1`. `int` values are integers.
* The sparse `compressed_matrix` is a dense `Matrix (Fin n) (Fin n) α`, a
  ublas vector of size `n` is a function `Fin n → α`, a `std::vector` is a
  `List`.
-/

namespace ght
namespace core

/-! ## Engine.h -/

namespace Engine

/-- The call `v.resize(n)` of `std::vector`: keeps the first `n` entries and
pads with value-initialised entries `d`. -/
def resize {β : Type} (xs : List β) (n : Nat) (d : β) : List β :=
  xs.take n ++ List.replicate (n - xs.length) d

/-- The call `std::copy(res.begin(), res.end(), dst.begin())`: the `n` entries of
`res` overwrite the first `n` entries of `dst`. -/
def copyInto {α : Type} {n : Nat} (res : Fin n → α) (dst : List α) : List α :=
  List.ofFn res ++ dst.drop n

/-- State of the loops of `runNaiveCPU`: the matrix-power buffer `temp`, the
accumulator `res`, and the output parameter `result`. -/
structure State (n : Nat) (α : Type) where
  temp : Fin n → α
  res : Fin n → α
  result : List (List α)

/-- Body of the inner loop of `runNaiveCPU` at counter `j` (Engine.h 68-74). -/
def coeffStep {α : Type} [Field α] {n : Nat} (laplacian : Matrix (Fin n) (Fin n) α)
    (signal : Fin n → α) (row : List α) (st : (Fin n → α) × (Fin n → α)) (j : Nat) :
    (Fin n → α) × (Fin n → α) :=
  let temp := if j = 0 then laplacian.mulVec signal else laplacian.mulVec st.1
  (temp, fun k => st.2 k + temp k * row.getD j 0)

/-- The inner loop `for( size_t j = 1; j < scaleCoeffs; ++j )` (Engine.h 66-75). -/
def scaleLoop {α : Type} [Field α] {n : Nat} (laplacian : Matrix (Fin n) (Fin n) α)
    (signal : Fin n → α) (row : List α) (st : (Fin n → α) × (Fin n → α)) :
    (Fin n → α) × (Fin n → α) :=
  (List.range' 1 (row.length - 1)).foldl (coeffStep laplacian signal row) st

/-- Body of the outer loop of `runNaiveCPU` at scale `i` (Engine.h 64-76). -/
def scaleStep {α : Type} [Field α] {n : Nat} (laplacian : Matrix (Fin n) (Fin n) α)
    (signal : Fin n → α) (coeff : List (List α)) (st : State n α) (i : Nat) : State n α :=
  let result1 := st.result.set i (resize (st.result.getD i []) n 0)
  let tr := scaleLoop laplacian signal (coeff.getD i []) (st.temp, st.res)
  { temp := tr.1, res := tr.2, result := result1.set i (copyInto tr.2 (result1.getD i [])) }

/-- `Engine::runNaiveCPU` (Engine.h 52-79). The vectors `temp` and `res` are
constructed with a size only, which leaves a ublas vector of scalars
uninitialised: their contents at entry are the arguments `temp0` and `res0`.
`result0` is the content of the output parameter at entry. Returns the
boolean result and the final content of `result`. -/
def runNaiveCPU {α : Type} [Field α] {n : Nat} (laplacian : Matrix (Fin n) (Fin n) α)
    (signal : Fin n → α) (coeff : List (List α)) (temp0 res0 : Fin n → α)
    (result0 : List (List α)) : Bool × List (List α) :=
  let nbScales := coeff.length
  let st0 : State n α := { temp := temp0, res := res0, result := resize result0 nbScales [] }
  let st := (List.range nbScales).foldl (scaleStep laplacian signal coeff) st0
  (true, st.result)

/-- The contract of `applySequential` in the words of the specification: for
each scale, the running vector starts from the signal and the accumulator from
zero, and for `j = 1..M-1` the vector `coeff[i][j] · Laplacian^j · signal` is
accumulated. -/
def applySequentialSpec {α : Type} [Field α] {n : Nat} (laplacian : Matrix (Fin n) (Fin n) α)
    (signal : Fin n → α) (coeff : List (List α)) : List (List α) :=
  coeff.map fun row =>
    List.ofFn fun k =>
      ∑ j in Finset.Icc 1 (row.length - 1), row.getD j 0 * ((laplacian ^ j).mulVec signal) k

/-! ### The loops of `runNaiveCPU` in closed form -/

/-- The inner loop as a fold over the coefficients after the first. -/
def powerFold {α : Type} [Field α] {n : Nat} (laplacian : Matrix (Fin n) (Fin n) α)
    (cs : List α) (st : (Fin n → α) × (Fin n → α)) : (Fin n → α) × (Fin n → α) :=
  cs.foldl (fun p c => (laplacian.mulVec p.1, fun k => p.2 k + laplacian.mulVec p.1 k * c)) st

/-- Buffers after all the scales of `coeff` have been processed. -/
def finalBuffers {α : Type} [Field α] {n : Nat} (laplacian : Matrix (Fin n) (Fin n) α)
    (coeff : List (List α)) (st : (Fin n → α) × (Fin n → α)) : (Fin n → α) × (Fin n → α) :=
  coeff.foldl (fun p row => powerFold laplacian row.tail p) st

/-- The accumulator as copied out after each scale. -/
def outputs {α : Type} [Field α] {n : Nat} (laplacian : Matrix (Fin n) (Fin n) α) :
    List (List α) → (Fin n → α) × (Fin n → α) → List (List α)
  | [], _ => []
  | row :: rest, st =>
    List.ofFn (powerFold laplacian row.tail st).2 ::
      outputs laplacian rest (powerFold laplacian row.tail st)

/-- Number of matrix products done before scale `k` starts: the sum over the
earlier scales of `max(M - 1, 0)`, `M` the length of the scale's coefficient
vector. -/
def powerOffset {α : Type} (coeff : List (List α)) (k : Nat) : Nat :=
  ((coeff.take k).map fun row => row.length - 1).sum

/-- The device matrix `gCoeff(i, j)` after `viennacl::copy(coeff, gCoeff)`
(Engine.h 93, 99): `gCoeff` has `cols` columns, the size of `coeff.at(0)`. A
read outside a host row during the copy, or outside the columns of the device
matrix in the loop, is unchecked; the value it yields is `oob i j`. -/
def deviceCoeff {α : Type} (coeff : List (List α)) (cols : Nat) (oob : Nat → Nat → α)
    (i j : Nat) : α :=
  if j < cols then
    match (coeff.getD i [])[j]? with
    | some c => c
    | none => oob i j
  else oob i j

/-- Body of the inner loop of `runNaiveGPU` at counter `j` (Engine.h 110-116). -/
def coeffStepGPU {α : Type} [Field α] {n : Nat} (gLaplacian : Matrix (Fin n) (Fin n) α)
    (gSignal : Fin n → α) (gCoeff : Nat → Nat → α) (i : Nat)
    (st : (Fin n → α) × (Fin n → α)) (j : Nat) : (Fin n → α) × (Fin n → α) :=
  let gCombLaplacian :=
    if j = 0 then gLaplacian.mulVec gSignal else gLaplacian.mulVec st.1
  (gCombLaplacian, fun k => st.2 k + gCombLaplacian k * gCoeff i j)

/-- Body of the outer loop of `runNaiveGPU` at scale `i` (Engine.h 105-121). -/
def scaleStepGPU {α : Type} [Field α] {n : Nat} (gLaplacian : Matrix (Fin n) (Fin n) α)
    (gSignal : Fin n → α) (coeff : List (List α)) (gCoeff : Nat → Nat → α)
    (st : State n α) (i : Nat) : State n α :=
  let result1 := st.result.set i (resize (st.result.getD i []) n 0)
  let tr := (List.range' 1 ((coeff.getD i []).length - 1)).foldl
    (coeffStepGPU gLaplacian gSignal gCoeff i) (st.temp, st.res)
  { temp := tr.1, res := tr.2, result := result1.set i (copyInto tr.2 (result1.getD i [])) }

/-- `Engine::runNaiveGPU` (Engine.h 81-123). `none` is an exception that leaves
the function: the checked access `coeff.at(0)` of line 93, outside the `try`
block, raises `std::out_of_range` on an empty table. `transferOk` tells whether
the three copies of the `try` block succeed; when one raises, the function
returns `false`. The device vectors `gCombLaplacian` and `gResult` are created
with a size only; their content at entry is `gComb0` and `gRes0`, and `oob` is
what an unchecked read outside the coefficient rows yields. -/
def runNaiveGPU {α : Type} [Field α] {n : Nat} (laplacian : Matrix (Fin n) (Fin n) α)
    (signal : Fin n → α) (coeff : List (List α)) (gComb0 gRes0 : Fin n → α)
    (oob : Nat → Nat → α) (transferOk : Bool) (result0 : List (List α)) :
    Option (Bool × List (List α)) :=
  match coeff[0]? with
  | none => none
  | some row0 =>
    let nbScales := coeff.length
    let result := resize result0 nbScales []
    if transferOk then
      let gCoeff := deviceCoeff coeff row0.length oob
      let st0 : State n α := { temp := gComb0, res := gRes0, result := result }
      let st := (List.range nbScales).foldl (scaleStepGPU laplacian signal coeff gCoeff) st0
      some (true, st.result)
    else some (false, result)

/-- `Engine::checkFitInGPUMem` (Engine.h 125-135): the comparison with the
device's maximum allocable memory is commented out; what is left is
`return true`. -/
def checkFitInGPUMem (_matrixSize _signalSize : Nat) : Bool :=
  true

/-- The admission check in the words of the specification: the estimated
required memory `matrixSize + signalSize` against the device's maximum
allocable memory `maxAllocable`. -/
def checkFitsInDeviceMemorySpec (maxAllocable matrixSize signalSize : Nat) : Bool :=
  if matrixSize + signalSize > maxAllocable then false else true

end Engine

/-! ## FilterFactory.h -/

/-- Modelled from the spec: the scalar function variants of `Func.h`, which is
not among the sources. `ScaleFunc c` multiplies its input by the constant,
`ScaleFuncOf f c` multiplies the output of the wrapped function by the
constant (the two constructors of the C++ `ScaleFunc`), `PowFunc` raises the
wrapped function's output to an integer exponent, `MinusFunc` negates it,
`ExpFunc` is the exponential of it, and `XExpMinusFunc` is `y · e^(−y)` at the
output `y` of the wrapped function. -/
inductive Func (α : Type) where
  | ScaleFunc (c : α) : Func α
  | ScaleFuncOf (f : Func α) (c : α) : Func α
  | PowFunc (f : Func α) (k : ℤ) : Func α
  | MinusFunc (f : Func α) : Func α
  | ExpFunc (f : Func α) : Func α
  | XExpMinusFunc (f : Func α) : Func α

/-- Modelled from the spec: the capability `apply` (evaluate) of a scalar
function of `Func.h`, a recursive visit of the tree; `exp` is `std::exp`. -/
def Func.apply {α : Type} [Field α] (exp : α → α) : Func α → α → α
  | .ScaleFunc c, x => c * x
  | .ScaleFuncOf f c, x => c * f.apply exp x
  | .PowFunc f k, x => f.apply exp x ^ k
  | .MinusFunc f, x => -f.apply exp x
  | .ExpFunc f, x => exp (f.apply exp x)
  | .XExpMinusFunc f, x => f.apply exp x * exp (-f.apply exp x)

/-- The class `Filter` (FilterFactory.h 29-77): an ordered sequence of kernels.
`Func` is an abstract base class of which the factory only calls `apply`, so a
kernel is its `apply` function. -/
abbrev Filter (α : Type) := List (α → α)

namespace util

/-- Modelled from the spec: `util::linspace` of `util/maths.h`, which is not
among the sources: `N` values evenly spaced from `a` to `b` inclusive (no value
for `N ≤ 0`; for `N = 1`, where the spec says nothing, the single value `a`,
which is what the formula gives in a field, where `x / 0 = 0`). -/
def linspace {α : Type} [Field α] (a b : α) (N : ℤ) : List α :=
  (List.range N.toNat).map fun (i : Nat) => a + (i : α) * ((b - a) / ((N : α) - 1))

/-- Modelled from the spec: `util::exp` of `util/maths.h`, which is not among
the sources: the exponential of every entry. -/
def exp {α : Type} (expF : α → α) (v : List α) : List α :=
  v.map expF

end util

namespace FilterFactory

/-- The enum `FilterClass` (FilterFactory.h 88-93). -/
inductive FilterClass where
  | MEXICAN_HAT
  | MEYER
  | ABSPLINE3
  | UNDEFINIED
  deriving DecidableEq

/-- `FilterFactory::chebyCoeff` (FilterFactory.h 128-150); `cos` and `pi` are
the cosine and the constant of the math library. -/
def chebyCoeff {α : Type} [Field α] (cos : α → α) (pi : α) (g : α → α)
    (order gridOrder : Nat) (arange : α × α) : α :=
  let a1 := arange.1
  let a2 := arange.2
  let t := (List.range' 1 gridOrder).foldl
    (fun (t : α) (i : Nat) =>
      let t1 := a1 * cos ((pi * ((i : α) - 0.5)) / (gridOrder : α)) + a2
      let t2 := cos ((pi * ((order - 1 : Nat) : α) * ((i : α) - 0.5)) / (gridOrder : α))
      let t3 := g t1 * t2
      t + t3)
    0
  2 * t / (gridOrder : α)

/-- `FilterFactory::createChebyCoeff` (FilterFactory.h 103-126). The C++ default
arguments are `gridOrder = 0` and `range = (-1, 1)`. -/
def createChebyCoeff {α : Type} [Field α] (cos : α → α) (pi : α) (filter : Filter α)
    (maxOrder gridOrder : Nat) (range : α × α) : List (List α) :=
  let gridOrder := if gridOrder = 0 then maxOrder + 1 else gridOrder
  let a1 := (range.2 - range.1) / 2.0
  let a2 := (range.2 + range.1) / 2.0
  let arange := (a1, a2)
  filter.foldl
    (fun (result : List (List α)) (g : α → α) =>
      result ++ [(List.range' 1 (maxOrder + 1)).foldl
        (fun (coeff : List α) (order : Nat) => coeff ++ [chebyCoeff cos pi g order gridOrder arange]) []])
    []

/-- `FilterFactory::waveletScales` (FilterFactory.h 184-199); `exp` and `log`
are `std::exp` and `std::log`. -/
def waveletScales {α : Type} [Field α] [DecidableEq α] (exp log : α → α)
    (lmin lmax : α) (N : ℤ) : List α :=
  if lmin = 0 ∨ lmax = 0 ∨ N ≤ 0 then []
  else
    let t1 : α := 1.0
    let t2 : α := 2.0
    let smin := t1 / lmax
    let smax := t2 / lmin
    util.exp exp (util.linspace (log smax) (log smin) N)

/-- How a call of the factory ends: it returns `value`; or it is left by an
exception (`raised`); or it goes through a quotient of the scalar type that is
an infinity or a NaN (`nonFinite`), a value the field `α` does not have, and the
model says nothing about what the call returns. -/
inductive Outcome (β : Type) where
  | returned (value : β) : Outcome β
  | raised : Outcome β
  | nonFinite : Outcome β

/-- Division in exact arithmetic: the quotient, and no finite value for a zero
divisor. -/
def exactDiv {α : Type} [Field α] [DecidableEq α] (x y : α) : Option α :=
  if y = 0 then none else some (x / y)

/-- Division of `double` (IEEE binary64, round to nearest, ties to even) as far
as the kind of the result goes. The result is not finite (`none`) for a zero
divisor and for a quotient of magnitude at least `2^1024 - 2^970`, which rounds
to an infinity; it is `0` for a quotient of magnitude at most `2^-1075`, half the
smallest positive `double`, which underflows; any other quotient is kept exact,
its rounding is not modelled. -/
def doubleDiv {α : Type} [LinearOrderedField α] (x y : α) : Option α :=
  if y = 0 then none
  else if |x / y| ≤ 1 / 2 ^ 1075 then some 0
  else if 2 ^ 1024 - 2 ^ 970 ≤ |x / y| then none
  else some (x / y)

/-- `FilterFactory::buildMexicanHat` (FilterFactory.h 202-228). `sdiv` is the
division of the scalar type at line 209, `lmin = lmax / lpFactor`: when the
quotient is not finite the outcome is `nonFinite`. The checked access `t.at(i)`
raises `std::out_of_range` when `t` has no entry `i`: the outcome is then
`raised`. -/
def buildMexicanHat {α : Type} [Field α] [DecidableEq α] (exp log : α → α)
    (sdiv : α → α → Option α) (lmax : α) (Nscales : ℤ) (lpFactor : α) : Outcome (Filter α) :=
  match sdiv lmax lpFactor with
  | none => Outcome.nonFinite
  | some lmin =>
    let lminFac := 0.4 * lmin
    let scale := Func.ScaleFunc (1 / lminFac)
    let powFunc := Func.PowFunc scale 4
    let minus := Func.MinusFunc powFunc
    let expFunc := Func.ExpFunc minus
    let gb := Func.ScaleFuncOf expFunc (1.2 * exp (-1))
    let filt : Filter α := [gb.apply exp]
    let t := waveletScales exp log lmin lmax Nscales
    match (List.range Nscales.toNat).foldlM
        (fun filt i =>
          match t[i]? with
          | none => none
          | some ti => some (filt ++ [(Func.XExpMinusFunc (Func.ScaleFunc ti)).apply exp]))
        filt with
    | some bank => Outcome.returned bank
    | none => Outcome.raised

/-- `FilterFactory::createFilter` (FilterFactory.h 152-171). The C++ default
argument is `lpFactor = 20.0`; `sdiv` is the division of the scalar type. -/
def createFilter {α : Type} [Field α] [DecidableEq α] (exp log : α → α)
    (sdiv : α → α → Option α) (type : FilterClass) (lmax : α) (Nscales : ℤ) (lpFactor : α) :
    Outcome (Filter α) :=
  match type with
  | .MEXICAN_HAT => buildMexicanHat exp log sdiv lmax Nscales lpFactor
  | _ => Outcome.returned []

/-- Entry `k` of row `s` of a table, when there is one. -/
def entry {α : Type} (table : List (List α)) (s k : Nat) : Option α :=
  table[s]?.bind fun row => row[k]?

end FilterFactory

/-! ## Lemmas on the engine -/

namespace Engine

theorem resize_length {β : Type} (xs : List β) (n : Nat) (d : β) :
    (resize xs n d).length = n := by
  simp only [resize, List.length_append, List.length_take, List.length_replicate]
  omega

theorem copyInto_resize {α : Type} [Zero α] {n : Nat} (res : Fin n → α) (xs : List α) :
    copyInto res (resize xs n 0) = List.ofFn res := by
  have h : (resize xs n (0 : α)).drop n = [] :=
    List.drop_eq_nil_of_le (by rw [resize_length])
  simp [copyInto, h]

theorem foldl_range_getD {α β : Type} (f : β → α → β) (d : α) (pre row : List α) (st : β) :
    (List.range' pre.length row.length).foldl (fun s j => f s ((pre ++ row).getD j d)) st
      = row.foldl f st := by
  induction row generalizing pre st with
  | nil => simp
  | cons c cs ih =>
    have h := ih (pre ++ [c]) (f st c)
    simp only [List.length_append, List.length_singleton, List.append_assoc,
      List.singleton_append] at h
    have hc : (pre ++ c :: cs).getD pre.length d = c := by
      rw [List.getD_eq_getElem?_getD, List.getElem?_append_right (le_refl _)]
      simp
    simp only [List.length_cons, List.range'_succ, List.foldl_cons, hc]
    exact h

theorem scaleLoop_eq {α : Type} [Field α] {n : Nat} (laplacian : Matrix (Fin n) (Fin n) α)
    (signal : Fin n → α) (row : List α) (st : (Fin n → α) × (Fin n → α)) :
    scaleLoop laplacian signal row st = powerFold laplacian row.tail st := by
  cases row with
  | nil => simp [scaleLoop, powerFold]
  | cons c cs =>
    have h := foldl_range_getD
      (fun (p : (Fin n → α) × (Fin n → α)) (x : α) =>
        (laplacian.mulVec p.1, fun k => p.2 k + laplacian.mulVec p.1 k * x)) 0 [c] cs st
    simp only [List.length_singleton, List.singleton_append] at h
    simp only [scaleLoop, powerFold, List.length_cons, Nat.add_sub_cancel, List.tail_cons]
    rw [← h]
    apply List.foldl_ext
    intro p j hj
    have hj0 : j ≠ 0 := by
      have := (List.mem_range'_1.mp hj).1
      omega
    simp [coeffStep, hj0]

theorem outputs_length {α : Type} [Field α] {n : Nat} (laplacian : Matrix (Fin n) (Fin n) α)
    (coeff : List (List α)) (st : (Fin n → α) × (Fin n → α)) :
    (outputs laplacian coeff st).length = coeff.length := by
  induction coeff generalizing st with
  | nil => rfl
  | cons row rest ih => simp [outputs, ih]

theorem finalBuffers_concat {α : Type} [Field α] {n : Nat}
    (laplacian : Matrix (Fin n) (Fin n) α) (coeff : List (List α)) (row : List α)
    (st : (Fin n → α) × (Fin n → α)) :
    finalBuffers laplacian (coeff ++ [row]) st
      = powerFold laplacian row.tail (finalBuffers laplacian coeff st) := by
  simp [finalBuffers, List.foldl_append]

theorem outputs_concat {α : Type} [Field α] {n : Nat}
    (laplacian : Matrix (Fin n) (Fin n) α) (coeff : List (List α)) (row : List α)
    (st : (Fin n → α) × (Fin n → α)) :
    outputs laplacian (coeff ++ [row]) st
      = outputs laplacian coeff st
          ++ [List.ofFn (powerFold laplacian row.tail (finalBuffers laplacian coeff st)).2] := by
  induction coeff generalizing st with
  | nil => simp [outputs, finalBuffers]
  | cons r rest ih =>
    have h := ih (powerFold laplacian r.tail st)
    simp only [finalBuffers] at h
    simp only [List.cons_append, outputs, List.append_eq, h, finalBuffers, List.foldl_cons]

theorem set_length_append {β : Type} (xs : List β) (b x : β) (ys : List β) :
    (xs ++ b :: ys).set xs.length x = xs ++ x :: ys := by
  induction xs with
  | nil => rfl
  | cons a xs ih => simp [ih]

theorem getD_length_append {β : Type} (xs : List β) (b d : β) (ys : List β) :
    (xs ++ b :: ys).getD xs.length d = b := by
  rw [List.getD_eq_getElem?_getD, List.getElem?_append_right (le_refl _)]
  simp

theorem scaleStep_at {α : Type} [Field α] {n : Nat} (laplacian : Matrix (Fin n) (Fin n) α)
    (signal : Fin n → α) (coeff : List (List α)) (t r : Fin n → α)
    (done : List (List α)) (b : List α) (todo : List (List α)) :
    scaleStep laplacian signal coeff { temp := t, res := r, result := done ++ b :: todo }
        done.length
      = { temp := (powerFold laplacian (coeff.getD done.length []).tail (t, r)).1,
          res := (powerFold laplacian (coeff.getD done.length []).tail (t, r)).2,
          result := done ++
            List.ofFn (powerFold laplacian (coeff.getD done.length []).tail (t, r)).2 :: todo } := by
  simp only [scaleStep, scaleLoop_eq, set_length_append, getD_length_append, copyInto_resize]

theorem outer_fold {α : Type} [Field α] {n : Nat} (laplacian : Matrix (Fin n) (Fin n) α)
    (signal : Fin n → α) (coeff : List (List α)) (t r : Fin n → α) (R : List (List α))
    (hR : R.length = coeff.length) (k : Nat) (hk : k ≤ coeff.length) :
    (List.range k).foldl (scaleStep laplacian signal coeff) { temp := t, res := r, result := R }
      = { temp := (finalBuffers laplacian (coeff.take k) (t, r)).1,
          res := (finalBuffers laplacian (coeff.take k) (t, r)).2,
          result := outputs laplacian (coeff.take k) (t, r) ++ R.drop k } := by
  induction k with
  | zero => simp [finalBuffers, outputs]
  | succ k ih =>
    have hk1 : k < coeff.length := hk
    have hkR : k < R.length := by omega
    rw [List.range_succ, List.foldl_append, ih (by omega)]
    have hlen : (outputs laplacian (coeff.take k) (t, r)).length = k := by
      rw [outputs_length, List.length_take]; omega
    have hdrop : R.drop k = R[k] :: R.drop (k + 1) := List.drop_eq_getElem_cons hkR
    have htake : coeff.take (k + 1) = coeff.take k ++ [coeff[k]] := by
      rw [List.take_succ, List.getElem?_eq_getElem hk1]; rfl
    have hget : coeff.getD k [] = coeff[k] := by
      rw [List.getD_eq_getElem?_getD, List.getElem?_eq_getElem hk1]; rfl
    have hstep := scaleStep_at laplacian signal coeff
      (finalBuffers laplacian (coeff.take k) (t, r)).1
      (finalBuffers laplacian (coeff.take k) (t, r)).2
      (outputs laplacian (coeff.take k) (t, r)) R[k] (R.drop (k + 1))
    rw [hlen, hget] at hstep
    simp only [List.foldl_cons, List.foldl_nil, hdrop, hstep, htake, finalBuffers_concat,
      outputs_concat, List.append_assoc, List.singleton_append]

/-- Closed form of `runNaiveCPU`: it returns `true` and `result` holds the
accumulator as it was after each scale; neither the signal's values nor the
content of `result` at entry matter. -/
theorem runNaiveCPU_eq {α : Type} [Field α] {n : Nat} (laplacian : Matrix (Fin n) (Fin n) α)
    (signal : Fin n → α) (coeff : List (List α)) (temp0 res0 : Fin n → α)
    (result0 : List (List α)) :
    runNaiveCPU laplacian signal coeff temp0 res0 result0
      = (true, outputs laplacian coeff (temp0, res0)) := by
  have h := outer_fold laplacian signal coeff temp0 res0 (resize result0 coeff.length [])
    (resize_length _ _ _) coeff.length (le_refl _)
  simp only [runNaiveCPU, h, List.take_length]
  rw [List.drop_eq_nil_of_le (by rw [resize_length]), List.append_nil]

/-- Entry `i` of the outputs is the accumulator after the scales `0..i`. -/
theorem outputs_get {α : Type} [Field α] {n : Nat} (laplacian : Matrix (Fin n) (Fin n) α)
    (coeff : List (List α)) (st : (Fin n → α) × (Fin n → α)) (i : Nat)
    (hi : i < coeff.length) :
    (outputs laplacian coeff st)[i]?
      = some (List.ofFn (finalBuffers laplacian (coeff.take (i + 1)) st).2) := by
  induction coeff generalizing st i with
  | nil => simp at hi
  | cons row rest ih =>
    cases i with
    | zero => simp [outputs, finalBuffers]
    | succ i =>
      have hi2 : i < rest.length := by simpa using hi
      have h := ih (powerFold laplacian row.tail st) i hi2
      simp only [finalBuffers] at h
      simp only [outputs, List.getElem?_cons_succ, h, finalBuffers, List.take_succ_cons,
        List.foldl_cons]

/-- The inner loop in closed form: after the coefficients `cs` the power buffer
holds `L^|cs| · t` and the accumulator has gained `Σ_j cs[j] · L^(j+1) · t`. -/
theorem powerFold_closed {α : Type} [Field α] {n : Nat} (laplacian : Matrix (Fin n) (Fin n) α)
    (cs : List α) (t r : Fin n → α) :
    powerFold laplacian cs (t, r)
      = ((laplacian ^ cs.length).mulVec t,
          fun x => r x + ∑ j in Finset.range cs.length,
            cs.getD j 0 * ((laplacian ^ (j + 1)).mulVec t) x) := by
  induction cs generalizing t r with
  | nil =>
    simp [powerFold]
  | cons c cs ih =>
    have hstep : powerFold laplacian (c :: cs) (t, r)
        = powerFold laplacian cs
            (laplacian.mulVec t, fun k => r k + laplacian.mulVec t k * c) := rfl
    have hpow : ∀ m : Nat, (laplacian ^ m).mulVec (laplacian.mulVec t)
        = (laplacian ^ (m + 1)).mulVec t := by
      intro m
      rw [Matrix.mulVec_mulVec, ← pow_succ]
    rw [hstep, ih]
    refine Prod.ext ?_ ?_
    · simp only [List.length_cons, hpow]
    · funext x
      simp only [List.length_cons, hpow]
      rw [Finset.sum_range_succ' _ cs.length]
      simp only [List.getD_cons_succ, List.getD_cons_zero, zero_add, pow_one]
      ring

theorem sum_Icc_tail {α : Type} [Field α] (row : List α) (f : Nat → α) :
    ∑ j in Finset.Icc 1 (row.length - 1), row.getD j 0 * f j
      = ∑ j in Finset.range row.tail.length, row.tail.getD j 0 * f (j + 1) := by
  have hshift : ∀ (g : Nat → α) (m : Nat),
      ∑ j in Finset.Icc 1 m, g j = ∑ j in Finset.range m, g (j + 1) := by
    intro g m
    induction m with
    | zero => simp
    | succ m ih => rw [Finset.sum_Icc_succ_top (by omega), ih, Finset.sum_range_succ]
  rw [hshift, List.length_tail]
  apply Finset.sum_congr rfl
  intro j _
  cases row with
  | nil => simp
  | cons c cs => simp

theorem powerOffset_append_le {α : Type} (coeff : List (List α)) (row : List α) (k : Nat)
    (hk : k ≤ coeff.length) :
    powerOffset (coeff ++ [row]) k = powerOffset coeff k := by
  simp only [powerOffset, List.take_append_of_le_length hk]

theorem powerOffset_append_succ {α : Type} (coeff : List (List α)) (row : List α) :
    powerOffset (coeff ++ [row]) (coeff.length + 1)
      = powerOffset coeff coeff.length + (row.length - 1) := by
  have h : (coeff ++ [row]).take (coeff.length + 1) = coeff ++ [row] := by
    apply List.take_of_length_le
    simp
  simp [powerOffset, h]

/-- All the scales in closed form. -/
theorem finalBuffers_closed {α : Type} [Field α] {n : Nat}
    (laplacian : Matrix (Fin n) (Fin n) α) (coeff : List (List α)) (t r : Fin n → α) :
    finalBuffers laplacian coeff (t, r)
      = ((laplacian ^ powerOffset coeff coeff.length).mulVec t,
          fun x => r x + ∑ k in Finset.range coeff.length,
            ∑ j in Finset.Icc 1 ((coeff.getD k []).length - 1),
              (coeff.getD k []).getD j 0
                * ((laplacian ^ (powerOffset coeff k + j)).mulVec t) x) := by
  induction coeff using List.reverseRecOn with
  | nil => simp [finalBuffers, powerOffset]
  | append_singleton coeff row ih =>
    rw [finalBuffers_concat, ih, powerFold_closed]
    have hpow : ∀ a b : Nat, (laplacian ^ a).mulVec ((laplacian ^ b).mulVec t)
        = (laplacian ^ (b + a)).mulVec t := by
      intro a b
      rw [Matrix.mulVec_mulVec, ← pow_add, add_comm]
    refine Prod.ext ?_ ?_
    · simp only [hpow, List.length_append, List.length_singleton, powerOffset_append_succ,
        List.length_tail]
    · funext x
      simp only [hpow, List.length_append, List.length_singleton]
      rw [Finset.sum_range_succ _ coeff.length, getD_length_append,
        powerOffset_append_le coeff row coeff.length (le_refl _),
        sum_Icc_tail row (fun j => ((laplacian ^ (powerOffset coeff coeff.length + j)).mulVec t) x)]
      have hsum : ∀ k ∈ Finset.range coeff.length,
          ∑ j in Finset.Icc 1 (((coeff ++ [row]).getD k []).length - 1),
              ((coeff ++ [row]).getD k []).getD j 0
                * ((laplacian ^ (powerOffset (coeff ++ [row]) k + j)).mulVec t) x
            = ∑ j in Finset.Icc 1 ((coeff.getD k []).length - 1),
              (coeff.getD k []).getD j 0
                * ((laplacian ^ (powerOffset coeff k + j)).mulVec t) x := by
        intro k hk
        have hk2 : k < coeff.length := Finset.mem_range.mp hk
        have hget : (coeff ++ [row]).getD k [] = coeff.getD k [] := by
          rw [List.getD_eq_getElem?_getD, List.getD_eq_getElem?_getD,
            List.getElem?_append_left hk2]
        rw [hget, powerOffset_append_le coeff row k hk2.le]
      rw [Finset.sum_congr rfl hsum]
      simp only [add_assoc]

/-- Entry `i` of the result of `runNaiveCPU` in closed form. -/
theorem runNaiveCPU_get {α : Type} [Field α] {n : Nat} (laplacian : Matrix (Fin n) (Fin n) α)
    (signal : Fin n → α) (coeff : List (List α)) (temp0 res0 : Fin n → α)
    (result0 : List (List α)) (i : Nat) (hi : i < coeff.length) :
    (runNaiveCPU laplacian signal coeff temp0 res0 result0).2[i]?
      = some (List.ofFn fun x => res0 x + ∑ k in Finset.range (i + 1),
          ∑ j in Finset.Icc 1 ((coeff.getD k []).length - 1),
            (coeff.getD k []).getD j 0
              * ((laplacian ^ (powerOffset coeff k + j)).mulVec temp0) x) := by
  rw [runNaiveCPU_eq]
  simp only
  rw [outputs_get laplacian coeff (temp0, res0) i hi, finalBuffers_closed]
  have hlen : (coeff.take (i + 1)).length = i + 1 := List.length_take_of_le hi
  have hsum : ∀ x : Fin n, ∀ k ∈ Finset.range (i + 1),
      ∑ j in Finset.Icc 1 (((coeff.take (i + 1)).getD k []).length - 1),
          ((coeff.take (i + 1)).getD k []).getD j 0
            * ((laplacian ^ (powerOffset (coeff.take (i + 1)) k + j)).mulVec temp0) x
        = ∑ j in Finset.Icc 1 ((coeff.getD k []).length - 1),
          (coeff.getD k []).getD j 0
            * ((laplacian ^ (powerOffset coeff k + j)).mulVec temp0) x := by
    intro x k hk
    have hk2 : k < i + 1 := Finset.mem_range.mp hk
    have hget : (coeff.take (i + 1)).getD k [] = coeff.getD k [] := by
      rw [List.getD_eq_getElem?_getD, List.getD_eq_getElem?_getD,
        List.getElem?_take_of_lt hk2]
    have hoff : powerOffset (coeff.take (i + 1)) k = powerOffset coeff k := by
      simp only [powerOffset, List.take_take, Nat.min_eq_left hk2.le]
    rw [hget, hoff]
  congr 2
  funext x
  rw [hlen]
  show res0 x + _ = res0 x + _
  rw [Finset.sum_congr rfl (hsum x)]

/-- On a table whose rows all have `cols` entries, the device matrix holds the
table and a scale of `runNaiveGPU` is a scale of `runNaiveCPU`. -/
theorem scaleStepGPU_eq {α : Type} [Field α] {n : Nat} (laplacian : Matrix (Fin n) (Fin n) α)
    (signal : Fin n → α) (coeff : List (List α)) (cols : Nat) (oob : Nat → Nat → α)
    (hrect : ∀ row ∈ coeff, row.length = cols) (st : State n α) (i : Nat) :
    scaleStepGPU laplacian signal coeff (deviceCoeff coeff cols oob) st i
      = scaleStep laplacian signal coeff st i := by
  have hfold : (List.range' 1 ((coeff.getD i []).length - 1)).foldl
      (coeffStepGPU laplacian signal (deviceCoeff coeff cols oob) i) (st.temp, st.res)
      = scaleLoop laplacian signal (coeff.getD i []) (st.temp, st.res) := by
    unfold scaleLoop
    apply List.foldl_ext
    intro p j hj
    have hj1 := List.mem_range'_1.mp hj
    have hjlt : j < (coeff.getD i []).length := by omega
    have hmem : coeff.getD i [] ∈ coeff := by
      rw [List.getD_eq_getElem?_getD]
      cases hget : coeff[i]? with
      | none => simp [List.getD_eq_getElem?_getD, hget] at hjlt
      | some row => exact List.mem_iff_getElem?.mpr ⟨i, hget⟩
    have hcols : j < cols := by rw [← hrect _ hmem]; exact hjlt
    have hval : deviceCoeff coeff cols oob i j = (coeff.getD i []).getD j 0 := by
      have hsome : (coeff.getD i [])[j]? = some (coeff.getD i [])[j] :=
        List.getElem?_eq_getElem hjlt
      rw [List.getD_eq_getElem?_getD (coeff.getD i []) j 0, deviceCoeff, if_pos hcols, hsome]
      rfl
    simp only [coeffStepGPU, coeffStep, hval]
  simp only [scaleStepGPU, scaleStep, hfold]

/-- On a non-empty table whose rows all have the length of the first, after a
successful transfer, `runNaiveGPU` computes what `runNaiveCPU` computes from
the same buffer contents at entry. -/
theorem runNaiveGPU_eq_runNaiveCPU {α : Type} [Field α] {n : Nat}
    (laplacian : Matrix (Fin n) (Fin n) α) (signal : Fin n → α) (row0 : List α)
    (rest : List (List α)) (b0 a0 : Fin n → α) (oob : Nat → Nat → α)
    (result0 : List (List α)) (hrect : ∀ row ∈ rest, row.length = row0.length) :
    runNaiveGPU laplacian signal (row0 :: rest) b0 a0 oob true result0
      = some (runNaiveCPU laplacian signal (row0 :: rest) b0 a0 result0) := by
  have hall : ∀ row ∈ row0 :: rest, row.length = row0.length := by
    intro row hrow
    rcases List.mem_cons.mp hrow with h | h
    · rw [h]
    · exact hrect row h
  have hstep : scaleStepGPU laplacian signal (row0 :: rest)
      (deviceCoeff (row0 :: rest) row0.length oob) = scaleStep laplacian signal (row0 :: rest) := by
    funext st i
    exact scaleStepGPU_eq laplacian signal (row0 :: rest) row0.length oob hall st i
  simp only [runNaiveGPU, runNaiveCPU, List.getElem?_cons_zero, if_true, hstep]

end Engine

/-! ## Lemmas on the filter factory -/

namespace FilterFactory

theorem foldl_push_back {β γ : Type} (f : β → γ) (xs : List β) (init : List γ) :
    xs.foldl (fun acc x => acc ++ [f x]) init = init ++ xs.map f := by
  induction xs generalizing init with
  | nil => simp
  | cons x xs ih => simp [ih]

theorem foldl_add_range {α : Type} [AddCommMonoid α] (f : Nat → α) (n : Nat) :
    (List.range' 1 n).foldl (fun t i => t + f i) 0 = ∑ i in Finset.Icc 1 n, f i := by
  induction n with
  | zero => simp
  | succ n ih =>
    rw [List.range'_1_concat, List.foldl_append, ih, Finset.sum_Icc_succ_top (by omega)]
    simp [add_comm 1 n]

/-- The quadrature sum of `chebyCoeff` in closed form. -/
theorem chebyCoeff_eq {α : Type} [Field α] (cos : α → α) (pi : α) (g : α → α)
    (order gridOrder : Nat) (arange : α × α) :
    chebyCoeff cos pi g order gridOrder arange
      = 2 * (∑ i in Finset.Icc 1 gridOrder,
          g (arange.1 * cos ((pi * ((i : α) - 0.5)) / (gridOrder : α)) + arange.2)
            * cos ((pi * ((order - 1 : Nat) : α) * ((i : α) - 0.5)) / (gridOrder : α)))
        / (gridOrder : α) := by
  simp only [chebyCoeff]
  rw [foldl_add_range]

/-- The two loops of `createChebyCoeff` as maps. -/
theorem createChebyCoeff_eq {α : Type} [Field α] (cos : α → α) (pi : α) (filter : Filter α)
    (maxOrder gridOrder : Nat) (range : α × α) :
    createChebyCoeff cos pi filter maxOrder gridOrder range
      = filter.map fun g => (List.range' 1 (maxOrder + 1)).map fun order =>
          chebyCoeff cos pi g order (if gridOrder = 0 then maxOrder + 1 else gridOrder)
            ((range.2 - range.1) / 2.0, (range.2 + range.1) / 2.0) := by
  simp only [createChebyCoeff, foldl_push_back, List.nil_append]

theorem entry_createChebyCoeff {α : Type} [Field α] (cos : α → α) (pi : α) (filter : Filter α)
    (maxOrder gridOrder : Nat) (range : α × α) (s k : Nat) (g : α → α)
    (hg : filter[s]? = some g) (hk : k ≤ maxOrder) :
    entry (createChebyCoeff cos pi filter maxOrder gridOrder range) s k
      = some (chebyCoeff cos pi g (k + 1) (if gridOrder = 0 then maxOrder + 1 else gridOrder)
          ((range.2 - range.1) / 2.0, (range.2 + range.1) / 2.0)) := by
  have hk1 : k < maxOrder + 1 := by omega
  simp [entry, createChebyCoeff_eq, List.getElem?_map, hg, List.getElem?_range', hk1,
    add_comm 1 k]

/-- Outside its guard, `waveletScales` is the exponential of `N` evenly spaced
logarithms. -/
theorem waveletScales_eq {α : Type} [Field α] [DecidableEq α] (exp log : α → α)
    (lmin lmax : α) (N : ℤ) (h : ¬ (lmin = 0 ∨ lmax = 0 ∨ N ≤ 0)) :
    waveletScales exp log lmin lmax N
      = (List.range N.toNat).map fun (i : Nat) =>
          exp (log (2 / lmin) + (i : α) * ((log (1 / lmax) - log (2 / lmin)) / ((N : α) - 1))) := by
  have h1 : (1.0 : α) = 1 := by norm_num
  have h2 : (2.0 : α) = 2 := by norm_num
  simp only [waveletScales, if_neg h, util.exp, util.linspace, List.map_map, h1, h2]
  rfl

theorem waveletScales_length {α : Type} [Field α] [DecidableEq α] (exp log : α → α)
    (lmin lmax : α) (N : ℤ) (h : ¬ (lmin = 0 ∨ lmax = 0 ∨ N ≤ 0)) :
    (waveletScales exp log lmin lmax N).length = N.toNat := by
  simp [waveletScales_eq exp log lmin lmax N h]

theorem waveletScales_get {α : Type} [Field α] [DecidableEq α] (exp log : α → α)
    (lmin lmax : α) (N : ℤ) (h : ¬ (lmin = 0 ∨ lmax = 0 ∨ N ≤ 0)) (i : Nat)
    (hi : i < N.toNat) :
    (waveletScales exp log lmin lmax N)[i]?
      = some (exp (log (2 / lmin)
          + (i : α) * ((log (1 / lmax) - log (2 / lmin)) / ((N : α) - 1)))) := by
  simp [waveletScales_eq exp log lmin lmax N h, List.getElem?_map, List.getElem?_range hi]

/-- A quotient that is zero empties the scale set, and the first lookup of the
loop of `buildMexicanHat` raises. -/
theorem buildMexicanHat_zero_lmin {α : Type} [Field α] [DecidableEq α] (exp log : α → α)
    (sdiv : α → α → Option α) (lmax : α) (Nscales : ℤ) (lpFactor : α)
    (hq : sdiv lmax lpFactor = some 0) (hN : 0 < Nscales) :
    buildMexicanHat exp log sdiv lmax Nscales lpFactor = Outcome.raised := by
  have hw : waveletScales exp log 0 lmax Nscales = [] := by
    simp [waveletScales]
  obtain ⟨m, hm⟩ : ∃ m : Nat, Nscales.toNat = m + 1 := ⟨Nscales.toNat - 1, by omega⟩
  simp only [buildMexicanHat, hq, hw, hm, List.range_succ_eq_map, List.foldlM_cons,
    List.getElem?_nil]
  rfl

/-- Telescoping identity behind the orthogonality of the quadrature nodes. -/
theorem sin_half_mul_sum_cos (θ : ℝ) (n : ℕ) :
    2 * Real.sin (θ / 2) * ∑ i in Finset.Icc 1 n, Real.cos (((i : ℝ) - 1 / 2) * θ)
      = Real.sin (n * θ) := by
  induction n with
  | zero => simp
  | succ n ih =>
    rw [Finset.sum_Icc_succ_top (by omega), mul_add, ih]
    have h1 : ((n + 1 : ℕ) : ℝ) * θ = ((n : ℝ) + 1 / 2) * θ + θ / 2 := by push_cast; ring
    have h2 : (n : ℝ) * θ = ((n : ℝ) + 1 / 2) * θ - θ / 2 := by ring
    have h3 : (((n + 1 : ℕ) : ℝ) - 1 / 2) * θ = ((n : ℝ) + 1 / 2) * θ := by push_cast; ring
    rw [h1, h3, Real.sin_add]
    nth_rewrite 1 [h2]
    rw [Real.sin_sub]
    ring

/-- The cosines at the `N` quadrature nodes sum to zero for every order `m` that
is not a multiple of `2 N`. -/
theorem sum_cos_nodes (N m : ℕ) (hN : 1 ≤ N) (hm : ¬ 2 * N ∣ m) :
    ∑ i in Finset.Icc 1 N, Real.cos (Real.pi * (m : ℝ) * ((i : ℝ) - 0.5) / (N : ℝ)) = 0 := by
  have hN0 : (N : ℝ) ≠ 0 := by
    have : 0 < N := hN
    exact_mod_cast this.ne'
  have hsin : Real.sin (Real.pi * (m : ℝ) / (N : ℝ) / 2) ≠ 0 := by
    intro h
    obtain ⟨z, hz⟩ := Real.sin_eq_zero_iff.mp h
    apply hm
    have hpi : Real.pi ≠ 0 := Real.pi_ne_zero
    have hz2 : (z : ℝ) * (2 * N) = m := by
      field_simp at hz
      have := mul_right_cancel₀ hpi (by linarith : (z : ℝ) * (↑N * 2) * Real.pi = ↑m * Real.pi)
      linarith
    have hz3 : z * (2 * (N : ℤ)) = (m : ℤ) := by exact_mod_cast hz2
    have : ((2 * N : ℕ) : ℤ) ∣ (m : ℤ) := ⟨z, by push_cast; linarith⟩
    exact Int.natCast_dvd_natCast.mp this
  have htel := sin_half_mul_sum_cos (Real.pi * (m : ℝ) / (N : ℝ)) N
  have hzero : Real.sin ((N : ℝ) * (Real.pi * (m : ℝ) / (N : ℝ))) = 0 := by
    have : (N : ℝ) * (Real.pi * (m : ℝ) / (N : ℝ)) = (m : ℝ) * Real.pi := by
      field_simp
      ring
    rw [this, Real.sin_nat_mul_pi]
  rw [hzero] at htel
  have hsum : ∑ i in Finset.Icc 1 N, Real.cos (((i : ℝ) - 1 / 2) * (Real.pi * (m : ℝ) / (N : ℝ))) = 0 := by
    rcases mul_eq_zero.mp htel with h | h
    · exact absurd (by linarith : Real.sin (Real.pi * (m : ℝ) / (N : ℝ) / 2) = 0) hsin
    · exact h
  rw [← hsum]
  apply Finset.sum_congr rfl
  intro i _
  congr 1
  norm_num
  ring

end FilterFactory

/-! ## The claims -/

/-- C1 (does not hold on the code): `runNaiveCPU` never reads the values of the
signal. With the 1×1 Laplacian `[1]` and the table `[[0, 1]]`, whatever the
uninitialised buffers hold at entry, the result is `[[res0 + temp0]]` for the
signal `[1]` and for the signal `[2]` alike, while the specified results are
`[[1]]` and `[[2]]`: the code cannot meet the contract for both signals. -/
theorem runNaiveCPU_signal_unused (temp0 res0 : Fin 1 → ℚ) (result0 : List (List ℚ)) :
    Engine.runNaiveCPU (1 : Matrix (Fin 1) (Fin 1) ℚ) ![1] [[0, 1]] temp0 res0 result0
        = (true, [[res0 0 + temp0 0]])
      ∧ Engine.runNaiveCPU (1 : Matrix (Fin 1) (Fin 1) ℚ) ![2] [[0, 1]] temp0 res0 result0
        = (true, [[res0 0 + temp0 0]])
      ∧ Engine.applySequentialSpec (1 : Matrix (Fin 1) (Fin 1) ℚ) ![1] [[0, 1]] = [[1]]
      ∧ Engine.applySequentialSpec (1 : Matrix (Fin 1) (Fin 1) ℚ) ![2] [[0, 1]] = [[2]] := by
  refine ⟨?_, ?_, ?_, ?_⟩
  · simp [Engine.runNaiveCPU_eq, Engine.outputs, Engine.powerFold]
  · simp [Engine.runNaiveCPU_eq, Engine.outputs, Engine.powerFold]
  · simp [Engine.applySequentialSpec]
  · simp [Engine.applySequentialSpec]

/-- C2: for `gridOrder ≥ 1`, the entry at index `k-1` (`k` in `1..maxOrder+1`) of
the coefficient vector that `createChebyCoeff` returns for the kernel `g` at
scale `s` is `(2/gridOrder) · Σ_{i=1..gridOrder} g(a1·cos(π(i−0.5)/gridOrder) + a2)
· cos(π(k−1)(i−0.5)/gridOrder)` with `a1 = (b−a)/2` and `a2 = (b+a)/2`. -/
theorem createChebyCoeff_entry_formula {α : Type} [Field α] (cos : α → α) (pi : α)
    (filter : Filter α) (maxOrder gridOrder : Nat) (a b : α) (s k : Nat) (g : α → α)
    (hgrid : 1 ≤ gridOrder) (hg : filter[s]? = some g) (hk1 : 1 ≤ k)
    (hk2 : k ≤ maxOrder + 1) :
    FilterFactory.entry (FilterFactory.createChebyCoeff cos pi filter maxOrder gridOrder (a, b))
        s (k - 1)
      = some ((2 / (gridOrder : α)) * ∑ i in Finset.Icc 1 gridOrder,
          g ((b - a) / 2 * cos (pi * ((i : α) - 0.5) / (gridOrder : α)) + (b + a) / 2)
            * cos (pi * ((k : α) - 1) * ((i : α) - 0.5) / (gridOrder : α))) := by
  have h0 : gridOrder ≠ 0 := by omega
  rw [FilterFactory.entry_createChebyCoeff cos pi filter maxOrder gridOrder (a, b) s (k - 1) g hg
    (by omega), FilterFactory.chebyCoeff_eq]
  have hk : k - 1 + 1 = k := by omega
  have h2 : (2.0 : α) = 2 := by norm_num
  simp only [if_neg h0, hk, h2, Nat.cast_sub hk1, Nat.cast_one]
  congr 1
  ring

/-- C2, at a concrete input: the identity kernel on `[-1, 1]`, `maxOrder = 1`,
`gridOrder = 2`, order `k = 2`. -/
theorem createChebyCoeff_entry_formula_witness :
    FilterFactory.entry
        (FilterFactory.createChebyCoeff Real.cos Real.pi [fun x : ℝ => x] 1 2 (-1, 1)) 0 (2 - 1)
      = some ((2 / ((2 : ℕ) : ℝ)) * ∑ i in Finset.Icc (1 : ℕ) 2,
          (fun x : ℝ => x)
              ((1 - -1) / 2 * Real.cos (Real.pi * ((i : ℝ) - 0.5) / ((2 : ℕ) : ℝ)) + (1 + -1) / 2)
            * Real.cos (Real.pi * (((2 : ℕ) : ℝ) - 1) * ((i : ℝ) - 0.5) / ((2 : ℕ) : ℝ))) :=
  createChebyCoeff_entry_formula Real.cos Real.pi [fun x : ℝ => x] 1 2 (-1) 1 0 2 (fun x => x)
    (by decide) rfl (by decide) (by decide)

/-- C3: the table returned by `createChebyCoeff` has one row per kernel of the
bank, every row has length `maxOrder + 1`, and row `s` holds the coefficients
of kernel `s` (bank order). -/
theorem createChebyCoeff_shape {α : Type} [Field α] (cos : α → α) (pi : α)
    (filter : Filter α) (maxOrder gridOrder : Nat) (range : α × α) :
    (FilterFactory.createChebyCoeff cos pi filter maxOrder gridOrder range).length
        = filter.length
      ∧ (∀ row ∈ FilterFactory.createChebyCoeff cos pi filter maxOrder gridOrder range,
          row.length = maxOrder + 1)
      ∧ FilterFactory.createChebyCoeff cos pi filter maxOrder gridOrder range
        = filter.map fun g => (List.range' 1 (maxOrder + 1)).map fun order =>
            FilterFactory.chebyCoeff cos pi g order
              (if gridOrder = 0 then maxOrder + 1 else gridOrder)
              ((range.2 - range.1) / 2.0, (range.2 + range.1) / 2.0) := by
  refine ⟨?_, ?_, FilterFactory.createChebyCoeff_eq cos pi filter maxOrder gridOrder range⟩
  · simp [FilterFactory.createChebyCoeff_eq]
  · intro row hrow
    rw [FilterFactory.createChebyCoeff_eq] at hrow
    obtain ⟨g, _, rfl⟩ := List.mem_map.mp hrow
    simp

/-- C4 as stated fails: for the constant kernel `1`, `maxOrder = 0` and
`gridOrder = 1` on `[-1, 1]`, the order-0 coefficient is `2`, not `1`. -/
theorem createChebyCoeff_const_order0_counterexample :
    FilterFactory.entry
        (FilterFactory.createChebyCoeff Real.cos Real.pi [fun _ : ℝ => 1] 0 1 (-1, 1)) 0 0
      = some 2
    ∧ FilterFactory.entry
        (FilterFactory.createChebyCoeff Real.cos Real.pi [fun _ : ℝ => 1] 0 1 (-1, 1)) 0 0
      ≠ some 1 := by
  have h : FilterFactory.entry
      (FilterFactory.createChebyCoeff Real.cos Real.pi [fun _ : ℝ => 1] 0 1 (-1, 1)) 0 0
      = some 2 := by
    simp [FilterFactory.entry, FilterFactory.createChebyCoeff, FilterFactory.chebyCoeff]
  refine ⟨h, ?_⟩
  rw [h]
  norm_num

/-- C4, amended: for every constant kernel `g(x) = c`, every `maxOrder`, every
`gridOrder` and every range, the order-0 coefficient that `createChebyCoeff`
returns for the kernel is `2·c`. -/
theorem createChebyCoeff_const_order0 (filter : Filter ℝ) (maxOrder gridOrder : Nat)
    (range : ℝ × ℝ) (s : Nat) (g : ℝ → ℝ) (c : ℝ) (hg : filter[s]? = some g)
    (hc : ∀ x, g x = c) :
    FilterFactory.entry
        (FilterFactory.createChebyCoeff Real.cos Real.pi filter maxOrder gridOrder range) s 0
      = some (2 * c) := by
  rw [FilterFactory.entry_createChebyCoeff Real.cos Real.pi filter maxOrder gridOrder range s 0 g
    hg (Nat.zero_le _), FilterFactory.chebyCoeff_eq]
  have hG : (if gridOrder = 0 then maxOrder + 1 else gridOrder) ≠ 0 := by
    split_ifs with h
    · exact Nat.succ_ne_zero maxOrder
    · exact h
  generalize (if gridOrder = 0 then maxOrder + 1 else gridOrder) = G at hG ⊢
  have hG0 : (G : ℝ) ≠ 0 := by exact_mod_cast hG
  simp only [hc, Nat.zero_add, Nat.sub_self, Nat.cast_zero, mul_zero, zero_mul, zero_div,
    Real.cos_zero, mul_one, Finset.sum_const, Nat.card_Icc, Nat.add_sub_cancel, nsmul_eq_mul]
  congr 1
  field_simp
  ring

/-- C4, amended, at a concrete input: the constant kernel `3` with the default
`gridOrder = 0`. -/
theorem createChebyCoeff_const_order0_witness :
    FilterFactory.entry
        (FilterFactory.createChebyCoeff Real.cos Real.pi [fun _ : ℝ => 3] 4 0 (-1, 1)) 0 0
      = some (2 * 3) :=
  createChebyCoeff_const_order0 [fun _ : ℝ => 3] 4 0 (-1, 1) 0 (fun _ => 3) 3 rfl (fun _ => rfl)

/-- C5 as stated fails: for the constant kernel `1`, `maxOrder = 2` and
`gridOrder = 1` on `[-1, 1]`, the order-2 coefficient is `-2`, not `0`. -/
theorem createChebyCoeff_const_higher_counterexample :
    FilterFactory.entry
        (FilterFactory.createChebyCoeff Real.cos Real.pi [fun _ : ℝ => 1] 2 1 (-1, 1)) 0 2
      = some (-2)
    ∧ FilterFactory.entry
        (FilterFactory.createChebyCoeff Real.cos Real.pi [fun _ : ℝ => 1] 2 1 (-1, 1)) 0 2
      ≠ some 0 := by
  have h : FilterFactory.entry
      (FilterFactory.createChebyCoeff Real.cos Real.pi [fun _ : ℝ => 1] 2 1 (-1, 1)) 0 2
      = some (-2) := by
    have hhalf : (1 - 0.5 : ℝ) = 1 / 2 := by norm_num
    have hpi : Real.pi * 2 * (1 - 0.5) = Real.pi := by rw [hhalf]; ring
    simp [FilterFactory.entry, FilterFactory.createChebyCoeff, FilterFactory.chebyCoeff,
      List.range', hpi]
  refine ⟨h, ?_⟩
  rw [h]
  norm_num

/-- C5, amended: for every constant kernel `g(x) = c`, every `maxOrder ≥ 1` and
every `gridOrder ≥ 1`, the coefficient of every order `m` in `1..maxOrder` that
is not a multiple of `2·gridOrder` is `0` (`m = 0` is a multiple, so `1 ≤ m` follows
from the last hypothesis). -/
theorem createChebyCoeff_const_higher (filter : Filter ℝ) (maxOrder gridOrder : Nat)
    (range : ℝ × ℝ) (s m : Nat) (g : ℝ → ℝ) (c : ℝ) (hgrid : 1 ≤ gridOrder)
    (hg : filter[s]? = some g) (hc : ∀ x, g x = c) (hm2 : m ≤ maxOrder)
    (hdvd : ¬ 2 * gridOrder ∣ m) :
    FilterFactory.entry
        (FilterFactory.createChebyCoeff Real.cos Real.pi filter maxOrder gridOrder range) s m
      = some 0 := by
  have h0 : gridOrder ≠ 0 := by omega
  rw [FilterFactory.entry_createChebyCoeff Real.cos Real.pi filter maxOrder gridOrder range s m g
    hg hm2, FilterFactory.chebyCoeff_eq]
  simp only [hc, if_neg h0, Nat.add_sub_cancel, ← Finset.mul_sum,
    FilterFactory.sum_cos_nodes gridOrder m hgrid hdvd, mul_zero, zero_div]

/-- C5, amended, at a concrete input: the constant kernel `3`, `maxOrder = 3`,
`gridOrder = 2`, order `m = 3`. -/
theorem createChebyCoeff_const_higher_witness :
    FilterFactory.entry
        (FilterFactory.createChebyCoeff Real.cos Real.pi [fun _ : ℝ => 3] 3 2 (-1, 1)) 0 3
      = some 0 :=
  createChebyCoeff_const_higher [fun _ : ℝ => 3] 3 2 (-1, 1) 0 3 (fun _ => 3) 3 (by decide) rfl
    (fun _ => rfl) (by decide) (by decide)

/-- C6: for `0 < lambdaMin < lambdaMax` and `N > 0`, `waveletScales` returns exactly
`N` values, all positive, strictly decreasing, and evenly spaced in log-space:
consecutive logarithms differ by `(log(1/lambdaMax) − log(2/lambdaMin)) / (N − 1)`. -/
theorem waveletScales_ordering (lmin lmax : ℝ) (N : ℤ) (hmin : 0 < lmin) (hlt : lmin < lmax)
    (hN : 0 < N) :
    ((FilterFactory.waveletScales Real.exp Real.log lmin lmax N).length : ℤ) = N
      ∧ (∀ x ∈ FilterFactory.waveletScales Real.exp Real.log lmin lmax N, 0 < x)
      ∧ (FilterFactory.waveletScales Real.exp Real.log lmin lmax N).Pairwise (fun a b => b < a)
      ∧ ∀ i : Nat, ((i : ℤ) + 1 < N) →
          Real.log ((FilterFactory.waveletScales Real.exp Real.log lmin lmax N).getD (i + 1) 0)
            - Real.log ((FilterFactory.waveletScales Real.exp Real.log lmin lmax N).getD i 0)
          = (Real.log (1 / lmax) - Real.log (2 / lmin)) / ((N : ℝ) - 1) := by
  have hmax : 0 < lmax := lt_trans hmin hlt
  have hguard : ¬ (lmin = 0 ∨ lmax = 0 ∨ N ≤ 0) := by
    rintro (h | h | h)
    · exact hmin.ne' h
    · exact hmax.ne' h
    · omega
  have hab : Real.log (1 / lmax) < Real.log (2 / lmin) := by
    apply Real.log_lt_log (by positivity)
    rw [div_lt_div_iff₀ hmax hmin]
    linarith
  refine ⟨?_, ?_, ?_, ?_⟩
  · rw [FilterFactory.waveletScales_length _ _ _ _ _ hguard]
    exact Int.toNat_of_nonneg hN.le
  · intro x hx
    rw [FilterFactory.waveletScales_eq _ _ _ _ _ hguard] at hx
    obtain ⟨i, _, rfl⟩ := List.mem_map.mp hx
    exact Real.exp_pos _
  · rw [FilterFactory.waveletScales_eq _ _ _ _ _ hguard]
    rcases eq_or_lt_of_le (show (1 : ℤ) ≤ N by omega) with h1 | h1
    · rw [← h1]
      simp
    · have hN1 : (0 : ℝ) < (N : ℝ) - 1 := by
        have : ((1 : ℤ) : ℝ) < (N : ℝ) := by exact_mod_cast h1
        simpa using sub_pos.mpr this
      have hd : (Real.log (1 / lmax) - Real.log (2 / lmin)) / ((N : ℝ) - 1) < 0 :=
        div_neg_of_neg_of_pos (by linarith) hN1
      refine List.Pairwise.map _ ?_ (List.pairwise_lt_range N.toNat)
      intro i j hij
      apply Real.exp_lt_exp.mpr
      have hij2 : (i : ℝ) < (j : ℝ) := by exact_mod_cast hij
      nlinarith
  · intro i hi
    have hi1 : i + 1 < N.toNat := by omega
    have hi0 : i < N.toNat := by omega
    have e1 := FilterFactory.waveletScales_get Real.exp Real.log lmin lmax N hguard (i + 1) hi1
    have e0 := FilterFactory.waveletScales_get Real.exp Real.log lmin lmax N hguard i hi0
    rw [List.getD_eq_getElem?_getD, List.getD_eq_getElem?_getD, e1, e0]
    simp only [Option.getD_some, Real.log_exp]
    push_cast
    ring

/-- C6 at a concrete input: `waveletScales(1, 2, 3)`. -/
theorem waveletScales_ordering_witness :
    ((FilterFactory.waveletScales Real.exp Real.log 1 2 3).length : ℤ) = 3
      ∧ (∀ x ∈ FilterFactory.waveletScales Real.exp Real.log 1 2 3, 0 < x)
      ∧ (FilterFactory.waveletScales Real.exp Real.log 1 2 3).Pairwise (fun a b => b < a)
      ∧ ∀ i : Nat, ((i : ℤ) + 1 < 3) →
          Real.log ((FilterFactory.waveletScales Real.exp Real.log 1 2 3).getD (i + 1) 0)
            - Real.log ((FilterFactory.waveletScales Real.exp Real.log 1 2 3).getD i 0)
          = (Real.log (1 / 2) - Real.log (2 / 1)) / (((3 : ℤ) : ℝ) - 1) :=
  waveletScales_ordering 1 2 3 (by norm_num) (by norm_num) (by decide)

/-- C7 as stated fails at `N = 1`: the sequence `waveletScales(1, 2, 1)` cannot
have both first element `2/1` and last element (index `N − 1 = 0`) `1/2`. -/
theorem waveletScales_endpoints_counterexample :
    ¬ ((FilterFactory.waveletScales Real.exp Real.log 1 2 1)[0]? = some (2 / 1)
      ∧ (FilterFactory.waveletScales Real.exp Real.log 1 2 1)[(1 : ℤ).toNat - 1]?
          = some (1 / 2)) := by
  rintro ⟨h0, h1⟩
  have h1x : (FilterFactory.waveletScales Real.exp Real.log 1 2 1)[0]? = some (1 / 2) := h1
  rw [h0] at h1x
  norm_num at h1x

/-- C7, amended: for `0 < lambdaMin < lambdaMax` and `N ≥ 2`, the first element of
`waveletScales(lambdaMin, lambdaMax, N)` is `2/lambdaMin` and the last, at index
`N − 1`, is `1/lambdaMax`. -/
theorem waveletScales_endpoints (lmin lmax : ℝ) (N : ℤ) (hmin : 0 < lmin) (hlt : lmin < lmax)
    (hN : 2 ≤ N) :
    (FilterFactory.waveletScales Real.exp Real.log lmin lmax N)[0]? = some (2 / lmin)
      ∧ (FilterFactory.waveletScales Real.exp Real.log lmin lmax N)[N.toNat - 1]?
          = some (1 / lmax) := by
  have hmax : 0 < lmax := lt_trans hmin hlt
  have hguard : ¬ (lmin = 0 ∨ lmax = 0 ∨ N ≤ 0) := by
    rintro (h | h | h)
    · exact hmin.ne' h
    · exact hmax.ne' h
    · omega
  have hN1 : (N : ℝ) - 1 ≠ 0 := by
    have : ((2 : ℤ) : ℝ) ≤ (N : ℝ) := by exact_mod_cast hN
    have h2 : (0 : ℝ) < (N : ℝ) - 1 := by push_cast at this; linarith
    exact h2.ne'
  constructor
  · rw [FilterFactory.waveletScales_get Real.exp Real.log lmin lmax N hguard 0 (by omega)]
    simp only [Nat.cast_zero, zero_mul, add_zero]
    rw [Real.exp_log (by positivity)]
  · rw [FilterFactory.waveletScales_get Real.exp Real.log lmin lmax N hguard (N.toNat - 1)
      (by omega)]
    have hcast : ((N.toNat - 1 : ℕ) : ℝ) = (N : ℝ) - 1 := by
      have h1 : 1 ≤ N.toNat := by omega
      have h2 : (N.toNat : ℤ) = N := Int.toNat_of_nonneg (by omega)
      have h3 : ((N.toNat : ℕ) : ℝ) = (N : ℝ) :=
        calc ((N.toNat : ℕ) : ℝ) = (((N.toNat : ℕ) : ℤ) : ℝ) := (Int.cast_natCast _).symm
          _ = (N : ℝ) := by rw [h2]
      rw [Nat.cast_sub h1, h3, Nat.cast_one]
    rw [hcast, mul_div_cancel₀ _ hN1]
    simp only [add_sub_cancel]
    rw [Real.exp_log (by positivity)]

/-- C7, amended, at a concrete input: `waveletScales(1, 2, 3)`. -/
theorem waveletScales_endpoints_witness :
    (FilterFactory.waveletScales Real.exp Real.log 1 2 3)[0]? = some (2 / 1)
      ∧ (FilterFactory.waveletScales Real.exp Real.log 1 2 3)[(3 : ℤ).toNat - 1]?
          = some (1 / 2) :=
  waveletScales_endpoints 1 2 3 (by norm_num) (by norm_num) (by decide)

/-- C8: whenever `lambdaMin = 0` or `lambdaMax = 0` or `N ≤ 0`, `waveletScales`
returns the empty sequence. -/
theorem waveletScales_degenerate {α : Type} [Field α] [DecidableEq α] (exp log : α → α)
    (lmin lmax : α) (N : ℤ) (h : lmin = 0 ∨ lmax = 0 ∨ N ≤ 0) :
    FilterFactory.waveletScales exp log lmin lmax N = [] := by
  simp only [FilterFactory.waveletScales, if_pos h]

/-- C8 at the inputs of the specification: `waveletScales(0,5,3)`,
`waveletScales(5,0,3)` and `waveletScales(1,5,0)` are empty. -/
theorem waveletScales_degenerate_witness :
    FilterFactory.waveletScales Real.exp Real.log 0 5 3 = []
      ∧ FilterFactory.waveletScales Real.exp Real.log 5 0 3 = []
      ∧ FilterFactory.waveletScales Real.exp Real.log 1 5 0 = [] :=
  ⟨waveletScales_degenerate Real.exp Real.log 0 5 3 (Or.inl rfl),
    waveletScales_degenerate Real.exp Real.log 5 0 3 (Or.inr (Or.inl rfl)),
    waveletScales_degenerate Real.exp Real.log 1 5 0 (Or.inr (Or.inr (le_refl 0)))⟩

/-- C9 as stated fails: `waveletScales(-1, 1, 1)` violates `lambdaMin > 0` and is
not empty. -/
theorem waveletScales_negative_counterexample :
    FilterFactory.waveletScales Real.exp Real.log (-1) 1 1 ≠ [] := by
  have hguard : ¬ ((-1 : ℝ) = 0 ∨ (1 : ℝ) = 0 ∨ (1 : ℤ) ≤ 0) := by norm_num
  intro h
  have hlen := FilterFactory.waveletScales_length Real.exp Real.log (-1) 1 1 hguard
  rw [h] at hlen
  simp at hlen

/-- C9, amended: `waveletScales` returns the empty sequence exactly when
`lambdaMin = 0` or `lambdaMax = 0` or `N ≤ 0`; on every other input, negative
`lambdaMin` or `lambdaMax` included, it returns `N` values. -/
theorem waveletScales_empty_iff {α : Type} [Field α] [DecidableEq α] (exp log : α → α)
    (lmin lmax : α) (N : ℤ) :
    (FilterFactory.waveletScales exp log lmin lmax N = [] ↔ (lmin = 0 ∨ lmax = 0 ∨ N ≤ 0))
      ∧ (¬ (lmin = 0 ∨ lmax = 0 ∨ N ≤ 0) →
          ((FilterFactory.waveletScales exp log lmin lmax N).length : ℤ) = N) := by
  have hlen : ¬ (lmin = 0 ∨ lmax = 0 ∨ N ≤ 0) →
      ((FilterFactory.waveletScales exp log lmin lmax N).length : ℤ) = N := by
    intro h
    rw [FilterFactory.waveletScales_length exp log lmin lmax N h]
    apply Int.toNat_of_nonneg
    by_contra hneg
    exact h (Or.inr (Or.inr (by omega)))
  refine ⟨⟨?_, ?_⟩, hlen⟩
  · intro hnil
    by_contra h
    have := hlen h
    rw [hnil] at this
    apply h
    right; right
    simp at this
    omega
  · intro h
    simp only [FilterFactory.waveletScales, if_pos h]

/-- C11: for every filter kind other than `MEXICAN_HAT` (`MEYER`, `ABSPLINE3`,
`UNDEFINIED`) and every `lambdaMax`, `numScales` and `lowPassFactor`,
`createFilter` returns a bank of size 0. -/
theorem createFilter_other_kinds {α : Type} [Field α] [DecidableEq α] (exp log : α → α)
    (sdiv : α → α → Option α) (type : FilterFactory.FilterClass) (lmax : α) (Nscales : ℤ)
    (lpFactor : α) (h : type ≠ FilterFactory.FilterClass.MEXICAN_HAT) :
    ∃ bank : Filter α,
      FilterFactory.createFilter exp log sdiv type lmax Nscales lpFactor
          = FilterFactory.Outcome.returned bank
        ∧ bank.length = 0 := by
  cases type with
  | MEXICAN_HAT => exact absurd rfl h
  | MEYER => exact ⟨[], rfl, rfl⟩
  | ABSPLINE3 => exact ⟨[], rfl, rfl⟩
  | UNDEFINIED => exact ⟨[], rfl, rfl⟩

/-- C11 at a concrete input: `createFilter(MEYER, 2, 3, 20)`. -/
theorem createFilter_other_kinds_witness :
    ∃ bank : Filter ℝ,
      FilterFactory.createFilter Real.exp Real.log FilterFactory.doubleDiv
          FilterFactory.FilterClass.MEYER 2 3 20 = FilterFactory.Outcome.returned bank
        ∧ bank.length = 0 :=
  createFilter_other_kinds Real.exp Real.log FilterFactory.doubleDiv
    FilterFactory.FilterClass.MEYER 2 3 20 (by decide)

/-- C12 (does not hold on the code): `createFilter(MEXICAN_HAT, 0, 1, 20)` does not
return a bank. The quotient `0 / 20` is `0` in exact arithmetic and in `double`
alike, the scale set of `waveletScales(0, 0, 1)` is empty and the loop of
`buildMexicanHat` still looks up `t.at(0)`, which raises. -/
theorem createFilter_mexicanHat_zero_lmax :
    FilterFactory.waveletScales Real.exp Real.log ((0 : ℝ) / 20) 0 1 = []
      ∧ FilterFactory.createFilter Real.exp Real.log FilterFactory.exactDiv
          FilterFactory.FilterClass.MEXICAN_HAT (0 : ℝ) 1 20 = FilterFactory.Outcome.raised
      ∧ FilterFactory.createFilter Real.exp Real.log FilterFactory.doubleDiv
          FilterFactory.FilterClass.MEXICAN_HAT (0 : ℝ) 1 20 = FilterFactory.Outcome.raised := by
  have hw : FilterFactory.waveletScales Real.exp Real.log ((0 : ℝ) / 20) 0 1 = [] := by
    simp [FilterFactory.waveletScales]
  have he : FilterFactory.exactDiv (0 : ℝ) 20 = some 0 := by
    simp [FilterFactory.exactDiv]
  have hd : FilterFactory.doubleDiv (0 : ℝ) 20 = some 0 := by
    have h20 : (20 : ℝ) ≠ 0 := by norm_num
    have hle : |(0 : ℝ) / 20| ≤ 1 / 2 ^ 1075 := by
      rw [zero_div, abs_zero]
      positivity
    simp only [FilterFactory.doubleDiv, if_neg h20, if_pos hle]
  exact ⟨hw,
    FilterFactory.buildMexicanHat_zero_lmin Real.exp Real.log FilterFactory.exactDiv 0 1 20 he
      (by decide),
    FilterFactory.buildMexicanHat_zero_lmin Real.exp Real.log FilterFactory.doubleDiv 0 1 20 hd
      (by decide)⟩

/-- C13 (does not hold on the code): on the empty coefficient table
`runNaiveGPU` leaves by the exception of `coeff.at(0)`, whatever the transfer
does, while `runNaiveCPU` returns `true` with an empty result set. -/
theorem runNaiveGPU_empty_table {α : Type} [Field α] {n : Nat}
    (laplacian : Matrix (Fin n) (Fin n) α) (signal : Fin n → α)
    (gComb0 gRes0 temp0 res0 : Fin n → α) (oob : Nat → Nat → α) (transferOk : Bool)
    (result0 : List (List α)) :
    Engine.runNaiveGPU laplacian signal [] gComb0 gRes0 oob transferOk result0 = none
      ∧ Engine.runNaiveCPU laplacian signal [] temp0 res0 result0 = (true, []) := by
  refine ⟨rfl, ?_⟩
  rw [Engine.runNaiveCPU_eq]
  rfl

/-- C14 as stated fails: for a device that can allocate 1024 and the input
`matrixSize = 2048`, `signalSize = 1` the specified check is `false` and
`checkFitInGPUMem` returns `true`; no input makes it return `false`. -/
theorem checkFitInGPUMem_counterexample :
    (Engine.checkFitsInDeviceMemorySpec 1024 2048 1 = false
        ∧ Engine.checkFitInGPUMem 2048 1 = true)
      ∧ ¬ ∃ matrixSize signalSize : Nat,
          Engine.checkFitInGPUMem matrixSize signalSize = false := by
  refine ⟨⟨by decide, rfl⟩, ?_⟩
  rintro ⟨m, s, h⟩
  simp [Engine.checkFitInGPUMem] at h

/-- C14, amended: `checkFitInGPUMem(matrixSize, signalSize)` returns `true` for
every input, whatever the device can allocate. -/
theorem checkFitInGPUMem_always (matrixSize signalSize : Nat) :
    Engine.checkFitInGPUMem matrixSize signalSize = true :=
  rfl

/-- C15: `runNaiveCPU` returns `true` and leaves in `result` exactly
`coeff.size()` vectors, each of length `N`, entry `i` being the accumulator as
it is after the scales `0..i` (table order), whatever `result` held on entry. -/
theorem runNaiveCPU_result_shape {α : Type} [Field α] {n : Nat}
    (laplacian : Matrix (Fin n) (Fin n) α) (signal : Fin n → α) (coeff : List (List α))
    (temp0 res0 : Fin n → α) (result0 : List (List α)) :
    (Engine.runNaiveCPU laplacian signal coeff temp0 res0 result0).1 = true
      ∧ (Engine.runNaiveCPU laplacian signal coeff temp0 res0 result0).2.length = coeff.length
      ∧ (∀ v ∈ (Engine.runNaiveCPU laplacian signal coeff temp0 res0 result0).2, v.length = n)
      ∧ (∀ i : Nat, i < coeff.length →
          (Engine.runNaiveCPU laplacian signal coeff temp0 res0 result0).2[i]?
            = some (List.ofFn
                (Engine.finalBuffers laplacian (coeff.take (i + 1)) (temp0, res0)).2))
      ∧ Engine.runNaiveCPU laplacian signal coeff temp0 res0 result0
          = Engine.runNaiveCPU laplacian signal coeff temp0 res0 [] := by
  rw [Engine.runNaiveCPU_eq, Engine.runNaiveCPU_eq]
  refine ⟨rfl, Engine.outputs_length _ _ _, ?_, ?_, rfl⟩
  · intro v hv
    obtain ⟨i, hi, rfl⟩ := List.getElem_of_mem hv
    have hi2 : i < coeff.length := by rwa [Engine.outputs_length] at hi
    have h := Engine.outputs_get laplacian coeff (temp0, res0) i hi2
    rw [List.getElem?_eq_getElem hi] at h
    rw [Option.some.inj h, List.length_ofFn]
  · intro i hi
    exact Engine.outputs_get laplacian coeff (temp0, res0) i hi

/-- C17: `createChebyCoeff` called with `gridOrder = 0` returns the table it
returns when called with `gridOrder = maxOrder + 1`. -/
theorem createChebyCoeff_default_gridOrder {α : Type} [Field α] (cos : α → α) (pi : α)
    (filter : Filter α) (maxOrder : Nat) (range : α × α) :
    FilterFactory.createChebyCoeff cos pi filter maxOrder 0 range
      = FilterFactory.createChebyCoeff cos pi filter maxOrder (maxOrder + 1) range := by
  simp only [FilterFactory.createChebyCoeff, if_true, Nat.succ_ne_zero, if_false]

/-- C19: in `runNaiveCPU` the power buffer and the accumulator are carried over
between scales and the signal's values never enter the computation. With `t0`
and `r0` the contents of the two buffers at entry, `M_k` the length of
`coeff[k]` and `K_k = Σ_{k' < k} max(M_k' − 1, 0)` (`powerOffset`), for every scale
`i` the result is `result[i] = r0 + Σ_{k ≤ i} Σ_{j = 1..M_k − 1} coeff[k][j] · L^(K_k + j) · t0`
(so `result[i] − result[i−1]` sees the earlier scales only through `K_i`), and two
signals of the same length give the same results. -/
theorem runNaiveCPU_carry_over {α : Type} [Field α] {n : Nat}
    (laplacian : Matrix (Fin n) (Fin n) α) (signal signal2 : Fin n → α)
    (coeff : List (List α)) (t0 r0 : Fin n → α) (result0 : List (List α)) :
    (∀ i : Nat, i < coeff.length →
        (Engine.runNaiveCPU laplacian signal coeff t0 r0 result0).2[i]?
          = some (List.ofFn fun x => r0 x + ∑ k in Finset.range (i + 1),
              ∑ j in Finset.Icc 1 ((coeff.getD k []).length - 1),
                (coeff.getD k []).getD j 0
                  * ((laplacian ^ (Engine.powerOffset coeff k + j)).mulVec t0) x))
      ∧ Engine.runNaiveCPU laplacian signal coeff t0 r0 result0
          = Engine.runNaiveCPU laplacian signal2 coeff t0 r0 result0 := by
  refine ⟨fun i hi => Engine.runNaiveCPU_get laplacian signal coeff t0 r0 result0 i hi, ?_⟩
  rw [Engine.runNaiveCPU_eq, Engine.runNaiveCPU_eq]

/-- C16 (does not hold on the code): for the kernel `g(x) = x`, `maxOrder = 1`,
`gridOrder = 2` and the range `[-1, 1]` the table of `createChebyCoeff` is
`[[0, 1]]`; with it, the Laplacian `diag(1,1,1)` and the signal `[1,0,0]`,
`runNaiveCPU` returns the single vector `res0 + temp0` made of the contents of
its uninitialised buffers, which is `[0,0,0]` on zero-filled memory, and never
reads the signal. -/
theorem endToEnd_identity_kernel :
    FilterFactory.createChebyCoeff Real.cos Real.pi [fun x : ℝ => x] 1 2 (-1, 1) = [[0, 1]]
      ∧ (∀ (temp0 res0 : Fin 3 → ℝ) (result0 : List (List ℝ)),
          Engine.runNaiveCPU (Matrix.diagonal ![1, 1, 1]) ![1, 0, 0] [[0, 1]] temp0 res0 result0
            = (true, [[res0 0 + temp0 0, res0 1 + temp0 1, res0 2 + temp0 2]]))
      ∧ Engine.runNaiveCPU (Matrix.diagonal ![1, 1, 1]) ![1, 0, 0] [[(0 : ℝ), 1]]
            ![0, 0, 0] ![0, 0, 0] []
          = (true, [[0, 0, 0]]) := by
  have hrun : ∀ (temp0 res0 : Fin 3 → ℝ) (result0 : List (List ℝ)),
      Engine.runNaiveCPU (Matrix.diagonal ![1, 1, 1]) ![1, 0, 0] [[0, 1]] temp0 res0 result0
        = (true, [[res0 0 + temp0 0, res0 1 + temp0 1, res0 2 + temp0 2]]) := by
    intro temp0 res0 result0
    have hd : (Matrix.diagonal ![(1 : ℝ), 1, 1]) = 1 := by
      ext i j
      fin_cases i <;> fin_cases j <;> simp [Matrix.one_apply]
    rw [Engine.runNaiveCPU_eq, hd]
    simp [Engine.outputs, Engine.powerFold, List.ofFn_succ]
  refine ⟨?_, hrun, ?_⟩
  · have h1 : Real.pi * ((1 : ℝ) - 0.5) / 2 = Real.pi / 4 := by norm_num; ring
    have h2 : Real.pi * ((2 : ℝ) - 0.5) / 2 = Real.pi - Real.pi / 4 := by norm_num; ring
    have hsq : (√2 / 2 : ℝ) * (√2 / 2) = 1 / 2 := by
      have := Real.mul_self_sqrt (show (0 : ℝ) ≤ 2 by norm_num)
      nlinarith
    simp [FilterFactory.createChebyCoeff, FilterFactory.chebyCoeff, List.range', h1, h2,
      Real.cos_pi_sub, Real.cos_pi_div_four]
    have h20 : (2.0 : ℝ) = 2 := by norm_num
    rw [h20]
    linear_combination 2 * hsq
  · rw [hrun]
    simp

/-- C18 (does not hold on the code): the result of a scale whose coefficient
vector has length 0 or 1 is the accumulator as it stands, not the zero vector.
With the 1×1 Laplacian `[1]`: for the tables `[[5]]` and `[[]]` the result is the
content `res0` of the uninitialised accumulator, and for `[[0, 1], [5]]` the
second scale repeats the result `res0 + temp0` of the first. -/
theorem runNaiveCPU_short_row (signal temp0 res0 : Fin 1 → ℚ) (result0 : List (List ℚ)) :
    Engine.runNaiveCPU (1 : Matrix (Fin 1) (Fin 1) ℚ) signal [[5]] temp0 res0 result0
        = (true, [[res0 0]])
      ∧ Engine.runNaiveCPU (1 : Matrix (Fin 1) (Fin 1) ℚ) signal [[]] temp0 res0 result0
        = (true, [[res0 0]])
      ∧ Engine.runNaiveCPU (1 : Matrix (Fin 1) (Fin 1) ℚ) signal [[0, 1], [5]] temp0 res0
          result0
        = (true, [[res0 0 + temp0 0], [res0 0 + temp0 0]]) := by
  refine ⟨?_, ?_, ?_⟩
  · simp [Engine.runNaiveCPU_eq, Engine.outputs, Engine.powerFold]
  · simp [Engine.runNaiveCPU_eq, Engine.outputs, Engine.powerFold]
  · simp [Engine.runNaiveCPU_eq, Engine.outputs, Engine.powerFold]

end core
end ght
